import Mathlib

/-!
Shallow embedding of the `fmu-settings` repository core:
configuration resource manager with dot-notation get/set/update
(`src/fmu/settings/resources/config.py`), the snapshot cache manager
(`src/fmu/settings/_resources/cache_manager.py`), the upward `.fmu`
directory search (`src/fmu/settings/_fmu_dir.py`), the initial config
model construction (`src/fmu/settings/_init.py`) and the user-log
manager session rule (`src/fmu/settings/_resources/userlog_manager.py`).

Python values flowing through the config dict are modelled by `PyVal`:
the code only ever distinguishes mappings (`isinstance(value, dict)`)
from everything else, so every non-mapping value is abstracted as a
`leaf` carrying an opaque label.  Python `dict`s are modelled as ordered
association lists (insertion order, in-place replacement), matching
CPython semantics for the operations used here.
-/

namespace FmuSettings

/-- A Python value as seen by the config manager: a string-keyed dict or
an opaque non-mapping value. -/
inductive PyVal where
  | dict : List (String × PyVal) → PyVal
  | leaf : String → PyVal
deriving Repr

/-- The dumped form of a config model: a Python dict. -/
abbrev PyDict := List (String × PyVal)

/-- `d[k]` lookup / `k in d` membership on a Python dict. -/
def dictGet (d : PyDict) (k : String) : Option PyVal :=
  match d with
  | [] => none
  | (k', v) :: rest => if k' = k then some v else dictGet rest k

/-- `d[k] = v` assignment on a Python dict: replaces in place, else
appends (CPython insertion-order semantics). -/
def dictSet (d : PyDict) (k : String) (v : PyVal) : PyDict :=
  match d with
  | [] => [(k, v)]
  | (k', v') :: rest => if k' = k then (k, v) :: rest else (k', v') :: dictSet rest k v

/-- Python `key.split(".")` on a Lean string, by characters: splitting
an empty string yields `[""]`, adjacent dots yield empty segments. -/
def splitDotAux : List Char → List Char → List String
  | [], acc => [String.mk acc.reverse]
  | c :: cs, acc =>
      if c = '.' then String.mk acc.reverse :: splitDotAux cs []
      else splitDotAux cs (c :: acc)

/-- Python `key.split(".")`. -/
def splitDot (s : String) : List String := splitDotAux s.data []

/-- Python `"." in key`. -/
def hasDot (s : String) : Bool := s.data.contains '.'

/-- The loop body of `ConfigManager._get_dot_notation_key`: walk `value`
through the path parts; any missing key or non-dict indexing yields the
default. -/
def getDotLoop (default : PyVal) : List String → PyVal → PyVal
  | [], v => v
  | p :: ps, .dict d =>
      match dictGet d p with
      | some v' => getDotLoop default ps v'
      | none => default
  | _ :: _, .leaf _ => default

/-- `ConfigManager._get_dot_notation_key(config_dict, key, default)`. -/
def getDotNotationKey (d : PyDict) (key : String) (default : PyVal) : PyVal :=
  getDotLoop default (splitDot key) (PyVal.dict d)

/-- The loop of `ConfigManager._set_dot_notation_key`: walk/create
intermediate dicts for `parts[:-1]` (overwriting non-dict intermediates
with `{}`), then assign the final part. -/
def setDotLoop : List String → PyDict → PyVal → PyDict
  | [], d, _ => d
  | [last], d, v => dictSet d last v
  | p :: ps, d, v =>
      let sub : PyDict :=
        match dictGet d p with
        | some (.dict m) => m
        | _ => []
      dictSet d p (.dict (setDotLoop ps sub v))

/-- `ConfigManager._set_dot_notation_key(config_dict, key, value)`. -/
def setDotNotationKey (d : PyDict) (key : String) (v : PyVal) : PyDict :=
  setDotLoop (splitDot key) d v

/-! ## The resource manager

The generic `PydanticResourceManager` (`resources/managers.py`) is not
present under `src/`; its `load`/`save`/cache behaviour is modelled from
the spec (sections 4.2 and 2): `load` returns the cached value when
present, otherwise reads and validates the file and replaces the cache;
`save` snapshots the prior on-disk content as a revision when one
exists, writes the new content and updates the cache.  Schema validation
is the external "structured validation" collaborator, so the manager is
parameterized by a schema (`validate`/`model_dump`/attribute lookup). -/

/-- The external schema capability: `Config.model_validate`,
`model_dump`, and Python attribute lookup on the live model object. -/
structure Schema (Cfg : Type) where
  validate : PyDict → Except String Cfg
  dump : Cfg → PyDict
  attr : Cfg → String → Option PyVal

/-- Observable state of one `ConfigManager`: the parsed on-disk resource
file (`none` = file absent), the in-memory `_cache`, and the revision
snapshots taken so far by `save`. -/
structure MgrState (Cfg : Type) where
  file : Option PyDict
  cache : Option Cfg
  revs : List PyDict

/-- Errors escaping the manager boundary. -/
inductive MgrErr where
  | fileNotFound (cls ctx : String)
  | validationError (cause : String)
  | valueError (cls key : String) (value : PyVal) (cause : String)
  | valueErrorUpdates (cls : String) (updates : List (String × PyVal)) (cause : String)
  | unboundLocal

/-- Modelled from the spec: `PydanticResourceManager.load` (spec 4.2,
the manager class itself is missing from `src/`): return the cached
value if present, otherwise read the file, validate it, replace the
cache on success; `FileNotFoundError` when the file is absent. -/
def loadSt {Cfg : Type} (sch : Schema Cfg) (s : MgrState Cfg) :
    Except MgrErr Cfg × MgrState Cfg :=
  match s.cache with
  | some c => (.ok c, s)
  | none =>
      match s.file with
      | none => (.error (.fileNotFound "ConfigManager" "load"), s)
      | some d =>
          match sch.validate d with
          | .ok c => (.ok c, { s with cache := some c })
          | .error e => (.error (.validationError e), s)

/-- Modelled from the spec: `PydanticResourceManager.save` (spec 4.2,
the manager class itself is missing from `src/`): snapshot the prior
on-disk content as a revision if a prior file exists, write the new
serialized value, then update the in-memory cache. -/
def saveSt {Cfg : Type} (sch : Schema Cfg) (v : Cfg) (s : MgrState Cfg) : MgrState Cfg :=
  { file := some (sch.dump v)
    cache := some v
    revs := s.revs ++ (match s.file with | some old => [old] | none => []) }

/-- `ConfigManager.get(key, default)`. -/
def getKey {Cfg : Type} (sch : Schema Cfg) (key : String) (default : PyVal)
    (s : MgrState Cfg) : Except MgrErr PyVal × MgrState Cfg :=
  match loadSt sch s with
  | (.error (.fileNotFound cls _), s1) =>
      (.error (.fileNotFound cls ("get " ++ key)), s1)
  | (.error e, s1) => (.error e, s1)
  | (.ok config, s1) =>
      if hasDot key then
        (.ok (getDotNotationKey (sch.dump config) key default), s1)
      else
        match sch.attr config key with
        | some v => (.ok v, s1)
        | none => (.ok ((dictGet (sch.dump config) key).getD default), s1)

/-- `ConfigManager.set(key, value)`. -/
def setKey {Cfg : Type} (sch : Schema Cfg) (key : String) (value : PyVal)
    (s : MgrState Cfg) : Except MgrErr Unit × MgrState Cfg :=
  match loadSt sch s with
  | (.error (.fileNotFound cls _), s1) =>
      (.error (.fileNotFound cls ("set " ++ key)), s1)
  | (.error (.validationError cause), s1) =>
      (.error (.valueError "ConfigManager" key value cause), s1)
  | (.error e, s1) => (.error e, s1)
  | (.ok config, s1) =>
      let config_dict := sch.dump config
      let mutated :=
        if hasDot key then setDotNotationKey config_dict key value
        else dictSet config_dict key value
      match sch.validate mutated with
      | .error cause =>
          (.error (.valueError "ConfigManager" key value cause), s1)
      | .ok updated_config => (.ok (), saveSt sch updated_config s1)

/-- The `for key, value in updates.items()` loop of
`ConfigManager.update`: dotted keys are applied with the walk-and-create
logic, and `Config.model_validate(config_dict)` runs on every iteration
(the assignment to `updated_config` is inside the loop).  The returned
trace records every dict passed to the validator. -/
def updateLoop {Cfg : Type} (sch : Schema Cfg) :
    List (String × PyVal) → PyDict → Option Cfg → List PyDict →
    Except String (PyDict × Option Cfg) × List PyDict
  | [], d, last, trace => (.ok (d, last), trace)
  | (key, value) :: rest, d, _last, trace =>
      let d' := if hasDot key then setDotNotationKey d key value else d
      match sch.validate d' with
      | .ok c => updateLoop sch rest d' (some c) (trace ++ [d'])
      | .error e => (.error e, trace ++ [d'])

/-- `ConfigManager.update(updates)`.  `updates` is an insertion-ordered
Python dict, modelled as an association list.  The second component of
the result is the final manager state, the third the trace of dicts
passed to `Config.model_validate` inside the loop. -/
def updateKeys {Cfg : Type} (sch : Schema Cfg) (updates : List (String × PyVal))
    (s : MgrState Cfg) : Except MgrErr Cfg × MgrState Cfg × List PyDict :=
  match loadSt sch s with
  | (.error (.fileNotFound cls _), s1) =>
      (.error (.fileNotFound cls "update"), s1, [])
  | (.error (.validationError cause), s1) =>
      (.error (.valueErrorUpdates "ConfigManager" updates cause), s1, [])
  | (.error e, s1) => (.error e, s1, [])
  | (.ok config, s1) =>
      let config_dict := sch.dump config
      let flat_updates := updates.filter (fun p => !(hasDot p.1))
      let d1 := flat_updates.foldl (fun d p => dictSet d p.1 p.2) config_dict
      match updateLoop sch updates d1 none [] with
      | (.error cause, trace) =>
          (.error (.valueErrorUpdates "ConfigManager" updates cause), s1, trace)
      | (.ok (_, none), trace) => (.error .unboundLocal, s1, trace)
      | (.ok (_, some updated_config), trace) =>
          (.ok updated_config, saveSt sch updated_config s1, trace)

/-! ## The cache manager

`CacheManager` (`_resources/cache_manager.py`) stores full-content
snapshots of a resource under `cache/<stem>/`.  Filenames are Python
strings compared by code point; they are modelled as `List Char`
(Lean `Char` ordering is by code point, like Python `str`).  The
directory listing order of `iterdir` is unspecified, so the snapshot
subdirectory is modelled as a list of filenames in creation order; both
`list_revisions` and `_trim` sort before using the order, exactly as the
source does. -/

/-- A snapshot filename, as a list of characters. -/
abbrev FName := List Char

/-- Python string `<` (strict lexicographic order by code point). -/
def lexLtB : FName → FName → Bool
  | [], [] => false
  | [], _ :: _ => true
  | _ :: _, [] => false
  | a :: as, b :: bs => if a < b then true else if b < a then false else lexLtB as bs

/-- One step of insertion sort with the Python `sort(key=λp, p.name)`
order. -/
def insertName (x : FName) : List FName → List FName
  | [] => [x]
  | y :: ys => if lexLtB y x then y :: insertName x ys else x :: y :: ys

/-- `revisions.sort(key=lambda path: path.name)`: a stable ascending
sort by filename. -/
def sortNames : List FName → List FName
  | [] => []
  | x :: xs => insertName x (sortNames xs)

/-- `CacheManager._trim`: if the number of snapshot files exceeds
`max_revisions`, sort by name and delete the oldest excess ones. -/
def trimFiles (maxRevisions : Nat) (files : List FName) : List FName :=
  if files.length ≤ maxRevisions then files
  else (sortNames files).drop (files.length - maxRevisions)

/-- `_CACHEDIR_TAG_CONTENT` from `cache_manager.py`, byte for byte. -/
def cachedirTagContent : String :=
  "Signature: 8a477f597d28d172789f06886806bc55\n# This directory contains cached FMU config files.\n# For information about cache directory tags, see:\n#\thttps://bford.info/cachedir/spec.html"

/-- Observable cache state for one resource: the snapshot subdirectory
(`none` until it has been created; then its files in creation order) and
the `CACHEDIR.TAG` file content (`none` while absent). -/
structure CacheState where
  subdir : Option (List FName)
  tag : Option String

/-- A `.fmu` directory with no cache tree yet. -/
def initCache : CacheState := ⟨none, none⟩

/-- `CacheManager._ensure_cachedir_tag`: write the tag only if it does
not exist yet. -/
def ensureTag (s : CacheState) : CacheState :=
  match s.tag with
  | some _ => s
  | none => { s with tag := some cachedirTagContent }

/-- `CacheManager.store_revision`: no-op returning `None` when
`max_revisions == 0`; otherwise ensure the cache root (and tag) and the
resource subdirectory exist, write the snapshot under the generated
name, then trim. -/
def storeRevision (maxRevisions : Nat) (name : FName) (s : CacheState) :
    Option FName × CacheState :=
  if maxRevisions = 0 then (none, s)
  else
    let s1 := ensureTag s
    let files := s1.subdir.getD []
    let files1 := files ++ [name]
    (some name, { s1 with subdir := some (trimFiles maxRevisions files1) })

/-- `CacheManager.list_revisions`: empty when the resource's snapshot
subdirectory has never been created, otherwise all its files sorted
ascending by filename. -/
def listRevisions (s : CacheState) : List FName :=
  match s.subdir with
  | none => []
  | some files => sortNames files

/-- A sequence of sequential `store_revision` calls with the given
generated filenames. -/
def runStores (maxRevisions : Nat) (names : List FName) (s : CacheState) : CacheState :=
  names.foldl (fun s n => (storeRevision maxRevisions n s).2) s

/-- Fixed-width zero-padded decimal rendering, most significant digit
first: the building block of `strftime` fields. -/
def padNum : Nat → Nat → List Char
  | 0, _ => []
  | w + 1, n => Nat.digitChar (n / 10 ^ w) :: padNum w (n % 10 ^ w)

/-- One instant as broken-down UTC time, as `datetime.now(UTC)` presents
it to `strftime`. -/
structure Timestamp where
  year : Nat
  month : Nat
  day : Nat
  hour : Nat
  minute : Nat
  second : Nat
  micro : Nat

/-- Field bounds guaranteeing that every `strftime` field fits its
zero-padded width (true of every real UTC datetime until year 10000). -/
def Timestamp.Valid (t : Timestamp) : Prop :=
  t.year < 10000 ∧ t.month < 100 ∧ t.day < 100 ∧ t.hour < 100 ∧
    t.minute < 100 ∧ t.second < 100 ∧ t.micro < 1000000

/-- Chronological (strict) order on broken-down timestamps. -/
def chronoLt (a b : Timestamp) : Prop :=
  a.year < b.year ∨ (a.year = b.year ∧
    (a.month < b.month ∨ (a.month = b.month ∧
      (a.day < b.day ∨ (a.day = b.day ∧
        (a.hour < b.hour ∨ (a.hour = b.hour ∧
          (a.minute < b.minute ∨ (a.minute = b.minute ∧
            (a.second < b.second ∨ (a.second = b.second ∧
              a.micro < b.micro)))))))))))

/-- `datetime.now(UTC).strftime("%Y%m%dT%H%M%S.%fZ")`. -/
def strftimeCompact (t : Timestamp) : List Char :=
  padNum 4 t.year ++ padNum 2 t.month ++ padNum 2 t.day ++ ['T'] ++
    padNum 2 t.hour ++ padNum 2 t.minute ++ padNum 2 t.second ++ ['.'] ++
    padNum 6 t.micro ++ ['Z']

/-- `config_file_path.suffix or ".txt"`. -/
def suffixOrTxt (suffix : List Char) : List Char :=
  if suffix = [] then ['.', 't', 'x', 't'] else suffix

/-- `uuid4().hex[:8]`: the 8-character random disambiguator token. -/
def tokenOfHex (hex : List Char) : List Char := hex.take 8

/-- `CacheManager._snapshot_filename`:
`f"{timestamp}-{token}{suffix}"`. -/
def snapshotFilename (t : Timestamp) (token : List Char) (suffix : List Char) :
    List Char :=
  strftimeCompact t ++ ['-'] ++ token ++ suffixOrTxt suffix

/-! ## The upward directory search

`FMUDirectory.find_fmu_directory` (`_fmu_dir.py`).  An absolute path is
modelled as its list of components from the filesystem root; the root is
`[]` and `Path.parent` is `dropLast` (the root is its own parent, as in
`pathlib`).  Which directories contain a `.fmu` marker subdirectory is
an arbitrary boolean predicate on paths. -/

/-- An absolute filesystem path: its components from the root. -/
abbrev AbsPath := List String

/-- The `while current not in visited` loop of `find_fmu_directory`,
with explicit fuel (the loop can run at most `start.length + 1` times
because `parent` strictly shortens every non-root path). -/
def findFmuAux (hasFmu : AbsPath → Bool) : Nat → List AbsPath → AbsPath → Option AbsPath
  | 0, _, _ => none
  | fuel + 1, visited, current =>
      if current ∈ visited then none
      else if hasFmu current then some (current ++ [".fmu"])
      else if current = current.dropLast then none
      else findFmuAux hasFmu fuel (current :: visited) current.dropLast

/-- `FMUDirectory.find_fmu_directory(start_path)`: search `start_path`
and its parents for a `.fmu` directory; `none` if absent everywhere. -/
def find_fmu_directory (hasFmu : AbsPath → Bool) (start : AbsPath) : Option AbsPath :=
  findFmuAux hasFmu (start.length + 1) [] start

/-- The ancestor chain of a path, the path itself first, the filesystem
root last. -/
def ancestors (l : AbsPath) : List AbsPath :=
  l :: (if _hne : l = [] then [] else ancestors l.dropLast)
termination_by l.length
decreasing_by
  simp only [List.length_dropLast]
  exact Nat.sub_lt (List.length_pos.mpr _hne) Nat.one_pos

/-! ## Initial config model construction

`_create_config_model` (`_init.py`).  The `Config` schema of
`models/config.py` has fields `version`, `created_at`, `created_by` and
a `masterdata` block; `created_at` instants are abstracted as natural
clock readings, and the masterdata block (plain validated data, out of
algorithmic scope) as an opaque optional label.  Validation of a config
dictionary is the external pydantic collaborator, passed in as a
function. -/

/-- `models.config.Config`: the validated configuration model. -/
structure ConfigModel where
  version : String
  created_at : Nat
  created_by : String
  masterdata : Option String

/-- `_create_config_model(config_data)`, with the ambient
`datetime.now(UTC)` and `getpass.getuser()` passed explicitly as `now`
and `user`, and `Config.model_validate` as `validate`.  A
`created_by` differing from `user` is only warned about, never
changed; `created_at` is overwritten with `now` ("Ensure not stale"). -/
def createConfigModel (validate : PyDict → Except String ConfigModel)
    (version : String) (now : Nat) (user : String)
    (config_data : Option (ConfigModel ⊕ PyDict)) : Except String ConfigModel :=
  match config_data with
  | none => .ok ⟨version, now, user, none⟩
  | some (.inl config) => .ok { config with created_at := now }
  | some (.inr d) =>
      match validate d with
      | .ok config => .ok { config with created_at := now }
      | .error e => .error e

/-! ## The user-log manager session rule

`UserlogManager.__init__` (`_resources/userlog_manager.py`).  The
`LogFileName` enum (`models/log.py`) is not present under `src/`; it is
modelled from the spec's file layout (section 6): `logs/eventlog.json`
holds the event log and `logs/userlog.json` the session-scoped user
log.  The world records the text files under `.fmu` and the
`(relative path, content)` pairs passed to
`CacheManager.store_revision`. -/

/-- Modelled from the spec: `LogFileName.eventlog` — the spec's file
layout names the event log file `eventlog.json` (the `LogFileName` enum
of `models/log.py` is missing from `src/`). -/
def LogFileName.eventlog : String := "eventlog.json"

/-- Modelled from the spec: `LogFileName.userlog` — the spec's file
layout names the session-scoped user log file `userlog.json` (the
`LogFileName` enum of `models/log.py` is missing from `src/`). -/
def LogFileName.userlog : String := "userlog.json"

/-- `UserlogManager.relative_path` as written in the source:
`Path("logs") / LogFileName.eventlog`. -/
def userlogRelativePath : String := "logs/" ++ LogFileName.eventlog

/-- Files inside `.fmu` (relative path, text content) plus the snapshots
handed to `CacheManager.store_revision`. -/
structure LogWorld where
  files : List (String × String)
  archived : List (String × String)

/-- Path lookup among the `.fmu` files. -/
def fileGet (files : List (String × String)) (p : String) : Option String :=
  (files.find? (fun q => q.1 == p)).map (·.2)

/-- `Path.unlink`: remove a file. -/
def fileRemove (files : List (String × String)) (p : String) :
    List (String × String) :=
  files.filter (fun q => q.1 != p)

/-- The session-boundary block of `UserlogManager.__init__`: if the file
at `relative_path` exists, read it, archive its content via
`store_revision(relative_path, content)`, then delete the live file. -/
def userlogInit (w : LogWorld) : LogWorld :=
  match fileGet w.files userlogRelativePath with
  | some content =>
      { files := fileRemove w.files userlogRelativePath
        archived := w.archived ++ [(userlogRelativePath, content)] }
  | none => w

/-! ## Specification-side helpers and concrete instances -/

/-- The update order described by the spec: all non-dotted keys as
direct top-level assignments first, then all dotted keys via the
walk-and-create logic. -/
def specApplyUpdates (updates : List (String × PyVal)) (d0 : PyDict) : PyDict :=
  let d1 := (updates.filter (fun p => !(hasDot p.1))).foldl
    (fun d p => dictSet d p.1 p.2) d0
  updates.foldl (fun d p => if hasDot p.1 then setDotNotationKey d p.1 p.2 else d) d1

/-- `a ≤ b` on filenames: `b` is not strictly below `a` (the
non-strict companion of Python string `<`). -/
def NameLe (a b : FName) : Prop := lexLtB b a = false

/-- The first line of a text file's content. -/
def firstLine (s : String) : String :=
  String.mk (s.data.takeWhile (fun c => c ≠ '\n'))

/-- A concrete miniature schema instance for counterexamples and
witnesses: the model is the dict itself, validation requires the
`version` field to be a non-mapping value, attributes are absent. -/
def exSchema : Schema PyDict where
  validate d :=
    match dictGet d "version" with
    | some (.leaf _) => .ok d
    | _ => .error "version must be a string"
  dump d := d
  attr _ _ := none

/-- A valid on-disk config with a cold (never-loaded) in-memory cache. -/
def exColdState : MgrState PyDict :=
  { file := some [("version", PyVal.leaf "1.0")], cache := none, revs := [] }

/-! ## Theorems -/

example :
    getDotNotationKey [("a", .leaf "1"), ("b", .dict [("c", .leaf "2")])] "b.c"
      (.leaf "none") = .leaf "2" := by rfl

example :
    getDotNotationKey [("a", .leaf "1")] "a.b" (.leaf "D") = .leaf "D" := by rfl

example :
    setDotNotationKey [("a", .leaf "1")] "a.b" (.leaf "x")
      = [("a", .dict [("b", .leaf "x")])] := by rfl

example :
    strftimeCompact ⟨2026, 10, 12, 3, 4, 5, 67⟩
      = "20261012T030405.000067Z".data := by rfl

example :
    (storeRevision 1 "a".data (storeRevision 1 "b".data initCache).2).2.subdir
      = some ["b".data] := by rfl

example :
    find_fmu_directory (fun p => p = ["home", "u"]) ["home", "u", "proj"]
      = some ["home", "u", ".fmu"] := by rfl

example :
    find_fmu_directory (fun _ => false) ["home", "u", "proj"] = none := by rfl


theorem loadSt_ok_cases {Cfg : Type} (sch : Schema Cfg) (s : MgrState Cfg)
    (c : Cfg) (s1 : MgrState Cfg) (h : loadSt sch s = (.ok c, s1)) :
    s1.file = s.file ∧ s1.revs = s.revs ∧
      ((s.cache = some c ∧ s1 = s) ∨
        (s.cache = none ∧ ∃ d, s.file = some d ∧ sch.validate d = .ok c ∧
          s1 = { s with cache := some c })) := by
  obtain ⟨f, cch, rvs⟩ := s
  cases cch with
  | some c' =>
      simp only [loadSt, Prod.mk.injEq, Except.ok.injEq] at h
      obtain ⟨hcc, hs⟩ := h
      subst hcc; subst hs
      exact ⟨rfl, rfl, .inl ⟨rfl, rfl⟩⟩
  | none =>
      cases f with
      | none => simp [loadSt] at h
      | some d =>
          cases hv : sch.validate d with
          | ok c' =>
              simp only [loadSt, hv, Prod.mk.injEq, Except.ok.injEq] at h
              obtain ⟨hcc, hs⟩ := h
              subst hcc
              subst hs
              exact ⟨rfl, rfl, .inr ⟨rfl, d, rfl, hv, rfl⟩⟩
          | error e => simp [loadSt, hv] at h

/-- C9: calling `ConfigManager.update` with an empty updates mapping on
a loadable (valid) config never returns a `Config` and never saves: the
per-key loop runs zero times, so the call reaches `self.save` with
`updated_config` unbound and fails with an unbound-variable
(`NameError`-class) error; the on-disk file and stored revisions are
untouched. -/
theorem update_empty_mapping_unbound {Cfg : Type} (sch : Schema Cfg)
    (s : MgrState Cfg) (c : Cfg) (s1 : MgrState Cfg)
    (h : loadSt sch s = (.ok c, s1)) :
    updateKeys sch [] s = (.error .unboundLocal, s1, [])
      ∧ s1.file = s.file ∧ s1.revs = s.revs := by
  obtain ⟨hfile, hrevs, _⟩ := loadSt_ok_cases sch s c s1 h
  refine ⟨?_, hfile, hrevs⟩
  unfold updateKeys
  rw [h]
  rfl

/-- Witness for C9 at a concrete valid config with a cold cache. -/
theorem update_empty_mapping_unbound_witness :
    updateKeys exSchema [] exColdState
        = (.error .unboundLocal,
            { file := some [("version", PyVal.leaf "1.0")]
              cache := some [("version", PyVal.leaf "1.0")]
              revs := [] }, [])
      ∧ ({ file := some [("version", PyVal.leaf "1.0")]
           cache := some [("version", PyVal.leaf "1.0")]
           revs := [] } : MgrState PyDict).file = exColdState.file
      ∧ ({ file := some [("version", PyVal.leaf "1.0")]
           cache := some [("version", PyVal.leaf "1.0")]
           revs := [] } : MgrState PyDict).revs = exColdState.revs :=
  update_empty_mapping_unbound exSchema exColdState
    [("version", PyVal.leaf "1.0")]
    { file := some [("version", PyVal.leaf "1.0")]
      cache := some [("version", PyVal.leaf "1.0")]
      revs := [] } rfl

/-- C10: for every `config_data` argument (absent, a `Config` instance,
or a dict accepted by validation), the model produced by
`_create_config_model` has `created_at` equal to the clock reading at
the moment of the call, overwriting any caller-supplied `created_at`;
a supplied `created_by` differing from the current OS user is kept
unchanged (the difference is only logged). -/
theorem create_config_model_stamps_clock
    (validate : PyDict → Except String ConfigModel)
    (version : String) (now : Nat) (user : String) :
    createConfigModel validate version now user none = .ok ⟨version, now, user, none⟩
    ∧ (∀ cfg, createConfigModel validate version now user (some (.inl cfg))
        = .ok { cfg with created_at := now })
    ∧ (∀ d cfg, validate d = .ok cfg →
        createConfigModel validate version now user (some (.inr d))
          = .ok { cfg with created_at := now })
    ∧ (∀ config_data cfg',
        createConfigModel validate version now user config_data = .ok cfg' →
          cfg'.created_at = now) := by
  refine ⟨rfl, fun cfg => rfl, fun d cfg hv => ?_, fun config_data cfg' h => ?_⟩
  · simp [createConfigModel, hv]
  · cases config_data with
    | none =>
        unfold createConfigModel at h
        cases h
        rfl
    | some x =>
        cases x with
        | inl cfg =>
            unfold createConfigModel at h
            cases h
            rfl
        | inr d =>
            cases hv : validate d with
            | ok cfg =>
                simp only [createConfigModel, hv, Except.ok.injEq] at h
                subst h
                rfl
            | error e => simp [createConfigModel, hv] at h

/-- Witness for C10: a dict-supplied config whose `created_by` differs
from the current user is restamped with the clock and keeps its
creator. -/
theorem create_config_model_stamps_clock_witness :
    createConfigModel (fun _ => .ok ⟨"1.0.0", 7, "bob", none⟩) "0.1.0" 42 "alice"
        (some (.inr []))
      = .ok ⟨"1.0.0", 42, "bob", none⟩ :=
  (create_config_model_stamps_clock (fun _ => .ok ⟨"1.0.0", 7, "bob", none⟩)
    "0.1.0" 42 "alice").2.2.1 [] ⟨"1.0.0", 7, "bob", none⟩ rfl

/-- C7 (divergence witness): `UserlogManager.relative_path` is written
as `Path("logs") / LogFileName.eventlog`, so when `logs/userlog.json`
exists from a previous session (and no event log file does), the
constructor archives nothing and deletes nothing: the live
`logs/userlog.json` is still present afterwards, contrary to the claim
(and to the manager's own docstring). -/
theorem userlog_init_leaves_userlog_untouched :
    userlogInit ⟨[("logs/userlog.json", "old entries")], []⟩
        = ⟨[("logs/userlog.json", "old entries")], []⟩
      ∧ fileGet (userlogInit ⟨[("logs/userlog.json", "old entries")], []⟩).files
          "logs/userlog.json" = some "old entries"
      ∧ (userlogInit ⟨[("logs/userlog.json", "old entries")], []⟩).archived = [] :=
  ⟨rfl, rfl, rfl⟩

theorem findFmuAux_eq (hasFmu : AbsPath → Bool) :
    ∀ (fuel : Nat) (cur : AbsPath) (visited : List AbsPath),
      cur.length < fuel → (∀ v ∈ visited, cur.length < v.length) →
      findFmuAux hasFmu fuel visited cur
        = ((ancestors cur).find? hasFmu).map (fun p => p ++ [".fmu"]) := by
  intro fuel
  induction fuel with
  | zero => intro cur visited hlen _; omega
  | succ n ih =>
      intro cur visited hlen hvis
      have hnotmem : cur ∉ visited := fun hm => absurd (hvis cur hm) (lt_irrefl _)
      unfold findFmuAux
      rw [if_neg hnotmem]
      cases hF : hasFmu cur with
      | true =>
          rw [ancestors]
          simp [List.find?, hF]
      | false =>
          by_cases hnil : cur = []
          · subst hnil
            simp [ancestors, List.find?, hF]
          · have hne : cur ≠ cur.dropLast := by
              intro heq
              have h1 : cur.dropLast.length = cur.length - 1 := List.length_dropLast cur
              have h2 : 0 < cur.length := List.length_pos.mpr hnil
              have h3 : cur.length = cur.dropLast.length := by rw [← heq]
              omega
            have hdl : cur.dropLast.length = cur.length - 1 := List.length_dropLast cur
            have hpos : 0 < cur.length := List.length_pos.mpr hnil
            rw [if_neg Bool.false_ne_true, if_neg hne,
              ih cur.dropLast (cur :: visited) (by omega) ?_]
            · conv_rhs => rw [ancestors]
              simp [hnil, List.find?, hF]
            · intro v hv
              rcases List.mem_cons.mp hv with h | h
              · subst h; omega
              · exact lt_trans (by omega) (hvis v h)

/-- C4: `find_fmu_directory` returns exactly the first element of the
ancestor chain (the start path first, then its parents up to the
filesystem root) that carries a `.fmu` marker directory — the closest
such ancestor, never an outer one — and the distinguished absence
`none` when no element of the chain carries the marker. -/
theorem find_fmu_directory_nearest (hasFmu : AbsPath → Bool) (start : AbsPath) :
    find_fmu_directory hasFmu start
      = ((ancestors start).find? hasFmu).map (fun p => p ++ [".fmu"]) :=
  findFmuAux_eq hasFmu (start.length + 1) start [] (Nat.lt_succ_self _)
    (by intro v hv; cases hv)

/-- C8: `ConfigManager.get` walks the dumped dict by successive path
segments for dotted keys, returning the default as soon as a segment is
missing or a non-mapping value is indexed; for dot-free keys it prefers
the live model attribute of that exact name, then the dumped-dict entry,
then the default; a missing key never raises, while a missing backing
file raises an annotated not-found error. -/
theorem get_key_spec {Cfg : Type} (sch : Schema Cfg) (s : MgrState Cfg)
    (key : String) (default : PyVal) :
    (∀ c s1, loadSt sch s = (.ok c, s1) → hasDot key = true →
        getKey sch key default s
          = (.ok (getDotNotationKey (sch.dump c) key default), s1))
    ∧ (∀ c s1, loadSt sch s = (.ok c, s1) → hasDot key = false →
        getKey sch key default s
          = (.ok (match sch.attr c key with
                  | some v => v
                  | none => (dictGet (sch.dump c) key).getD default), s1))
    ∧ (s.cache = none → s.file = none →
        getKey sch key default s
          = (.error (.fileNotFound "ConfigManager" ("get " ++ key)), s))
    ∧ (∀ dflt v, getDotLoop dflt [] v = v)
    ∧ (∀ dflt p ps x, getDotLoop dflt (p :: ps) (.leaf x) = dflt)
    ∧ (∀ dflt p ps d, dictGet d p = none →
        getDotLoop dflt (p :: ps) (.dict d) = dflt)
    ∧ (∀ dflt p ps d v, dictGet d p = some v →
        getDotLoop dflt (p :: ps) (.dict d) = getDotLoop dflt ps v) := by
  refine ⟨?_, ?_, ?_, fun dflt v => rfl, fun dflt p ps x => rfl, ?_, ?_⟩
  · intro c s1 h hdot
    simp [getKey, h, hdot]
  · intro c s1 h hdot
    simp [getKey, h, hdot]
    cases sch.attr c key <;> rfl
  · intro hc hf
    obtain ⟨f, cch, rvs⟩ := s
    simp only at hc hf
    subst hc; subst hf
    simp [getKey, loadSt]
  · intro dflt p ps d h
    simp [getDotLoop, h]
  · intro dflt p ps d v h
    simp [getDotLoop, h]

/-- Witness for C8: a dotted lookup on a loaded config reaching a
nested value, with the file-missing clause also exercised. -/
theorem get_key_spec_witness :
    getKey exSchema "a.b" (PyVal.leaf "D") exColdState
      = (.ok (getDotNotationKey [("version", PyVal.leaf "1.0")] "a.b"
          (PyVal.leaf "D")),
        { file := some [("version", PyVal.leaf "1.0")]
          cache := some [("version", PyVal.leaf "1.0")]
          revs := [] }) :=
  (get_key_spec exSchema exColdState "a.b" (PyVal.leaf "D")).1
    [("version", PyVal.leaf "1.0")]
    { file := some [("version", PyVal.leaf "1.0")]
      cache := some [("version", PyVal.leaf "1.0")]
      revs := [] } rfl rfl

/-- C1 (amended): when `ConfigManager.set(key, value)` fails schema
validation it raises a `ValueError`-class error naming the manager
class, the key and the attempted value; the on-disk resource file and
the stored revisions are exactly as before the call, the failed dict is
never persisted and never cached, and an already-populated in-memory
cache is unchanged — but when the cache was empty, the internal `load`
step has populated it with the validated on-disk (pre-mutation)
value. -/
theorem set_validation_failure_preserves {Cfg : Type} (sch : Schema Cfg)
    (s : MgrState Cfg) (key : String) (value : PyVal)
    (cls k : String) (v : PyVal) (cause : String)
    (h : (setKey sch key value s).1 = .error (.valueError cls k v cause)) :
    cls = "ConfigManager" ∧ k = key ∧ v = value
    ∧ (setKey sch key value s).2.file = s.file
    ∧ (setKey sch key value s).2.revs = s.revs
    ∧ (∀ c0, s.cache = some c0 → (setKey sch key value s).2.cache = some c0)
    ∧ (s.cache = none →
        (setKey sch key value s).2.cache = none ∨
          ∃ d c, s.file = some d ∧ sch.validate d = .ok c ∧
            (setKey sch key value s).2.cache = some c) := by
  obtain ⟨f, cch, rvs⟩ := s
  cases cch with
  | some c0 =>
      cases hv2 : sch.validate
          (if hasDot key then setDotNotationKey (sch.dump c0) key value
           else dictSet (sch.dump c0) key value) with
      | ok c' => simp [setKey, loadSt, hv2] at h
      | error cause' =>
          simp [setKey, loadSt, hv2] at h ⊢
          obtain ⟨h1, h2, h3, _⟩ := h
          exact ⟨h1.symm, h2.symm, h3.symm⟩
  | none =>
      cases f with
      | none => simp [setKey, loadSt] at h
      | some d =>
          cases hv : sch.validate d with
          | error e =>
              simp [setKey, loadSt, hv] at h ⊢
              obtain ⟨h1, h2, h3, _⟩ := h
              exact ⟨h1.symm, h2.symm, h3.symm⟩
          | ok c1 =>
              cases hv2 : sch.validate
                  (if hasDot key then setDotNotationKey (sch.dump c1) key value
                   else dictSet (sch.dump c1) key value) with
              | ok c' => simp [setKey, loadSt, hv, hv2] at h
              | error cause' =>
                  simp [setKey, loadSt, hv, hv2] at h ⊢
                  obtain ⟨h1, h2, h3, _⟩ := h
                  exact ⟨h1.symm, h2.symm, h3.symm⟩

/-- C1 counterexample: on a manager whose in-memory cache is empty
(never loaded), a `set` that fails validation changes the in-memory
cache from absent to the loaded on-disk config, so the cache is not
"exactly as it was before the call" as the claim states (the file is,
and the failed dict is nowhere). -/
theorem set_cold_cache_changes_cache :
    (setKey exSchema "version" (.dict []) exColdState).1
        = .error (.valueError "ConfigManager" "version" (.dict [])
            "version must be a string")
      ∧ exColdState.cache = none
      ∧ (setKey exSchema "version" (.dict []) exColdState).2.cache
          = some [("version", PyVal.leaf "1.0")] :=
  ⟨rfl, rfl, rfl⟩

/-- Witness for the amended C1 at a concrete failing `set`: the on-disk
file is untouched. -/
theorem set_validation_failure_preserves_witness :
    (setKey exSchema "version" (.dict []) exColdState).2.file = exColdState.file
    ∧ (setKey exSchema "version" (.dict []) exColdState).2.revs
        = exColdState.revs :=
  ⟨(set_validation_failure_preserves exSchema exColdState "version" (.dict [])
      "ConfigManager" "version" (.dict []) "version must be a string" rfl).2.2.2.1,
   (set_validation_failure_preserves exSchema exColdState "version" (.dict [])
      "ConfigManager" "version" (.dict []) "version must be a string" rfl).2.2.2.2.1⟩

theorem updateLoop_ok {Cfg : Type} (sch : Schema Cfg) :
    ∀ (us : List (String × PyVal)) (d : PyDict) (last : Option Cfg)
      (tr : List PyDict) (dOut : PyDict) (lastOut : Option Cfg)
      (trace : List PyDict),
      updateLoop sch us d last tr = (.ok (dOut, lastOut), trace) →
      dOut = us.foldl
          (fun d p => if hasDot p.1 then setDotNotationKey d p.1 p.2 else d) d
      ∧ trace.length = tr.length + us.length
      ∧ (us = [] → lastOut = last ∧ trace = tr)
      ∧ (us ≠ [] → ∃ c, lastOut = some c ∧ sch.validate dOut = .ok c) := by
  intro us
  induction us with
  | nil =>
      intro d last tr dOut lastOut trace h
      simp only [updateLoop, Prod.mk.injEq, Except.ok.injEq] at h
      obtain ⟨⟨hd, hl⟩, ht⟩ := h
      subst hd; subst hl; subst ht
      exact ⟨rfl, by simp, fun _ => ⟨rfl, rfl⟩, fun hne => absurd rfl hne⟩
  | cons kv rest ih =>
      intro d last tr dOut lastOut trace h
      obtain ⟨key, value⟩ := kv
      cases hv : sch.validate
          (if hasDot key then setDotNotationKey d key value else d) with
      | error e => simp [updateLoop, hv] at h
      | ok c =>
          simp only [updateLoop, hv] at h
          obtain ⟨hfold, hlen, hnil, hne⟩ :=
            ih (if hasDot key then setDotNotationKey d key value else d)
              (some c) (tr ++ [if hasDot key then setDotNotationKey d key value else d])
              dOut lastOut trace h
          refine ⟨?_, ?_, ?_, ?_⟩
          · simpa using hfold
          · simp only [List.length_append, List.length_cons, List.length_nil] at hlen
            simp only [List.length_cons]
            omega
          · intro habs
            exact nomatch habs
          · intro _
            cases rest with
            | nil =>
                obtain ⟨hl, ht⟩ := hnil rfl
                subst hl
                refine ⟨c, rfl, ?_⟩
                rw [hfold]
                simpa using hv
            | cons kv2 rest2 => exact hne (by simp)

/-- C2 (amended): `ConfigManager.update(updates)` applies all non-dotted
keys as direct top-level assignments first and all dotted keys via the
walk-and-create logic afterwards, but validates the working dict once
per update key (the loop body validates on every iteration), the last
validation being of the resulting dict; it saves exactly once, after
the loop; on validation failure it raises a single aggregated
`ValueError` naming all updates, and nothing is persisted. -/
theorem update_batched {Cfg : Type} (sch : Schema Cfg) (s : MgrState Cfg)
    (updates : List (String × PyVal)) (c : Cfg) (s1 : MgrState Cfg)
    (hload : loadSt sch s = (.ok c, s1)) :
    (∀ cfg, (updateKeys sch updates s).1 = .ok cfg →
        sch.validate (specApplyUpdates updates (sch.dump c)) = .ok cfg
        ∧ (updateKeys sch updates s).2.1 = saveSt sch cfg s1
        ∧ (updateKeys sch updates s).2.2.length = updates.length)
    ∧ (∀ cls us cause,
        (updateKeys sch updates s).1 = .error (.valueErrorUpdates cls us cause) →
        cls = "ConfigManager" ∧ us = updates
        ∧ (updateKeys sch updates s).2.1.file = s.file
        ∧ (updateKeys sch updates s).2.1.revs = s.revs) := by
  obtain ⟨hfile, hrevs, -⟩ := loadSt_ok_cases sch s c s1 hload
  cases hLoop : updateLoop sch updates
      ((updates.filter (fun p => !(hasDot p.1))).foldl
        (fun d p => dictSet d p.1 p.2) (sch.dump c)) none [] with
  | mk res trace =>
      cases res with
      | error cause =>
          constructor
          · intro cfg h
            simp [updateKeys, hload, hLoop] at h
          · intro cls us cause' h
            simp [updateKeys, hload, hLoop] at h ⊢
            obtain ⟨h1, h2, -⟩ := h
            subst h1
            subst h2
            exact ⟨rfl, rfl, hfile, hrevs⟩
      | ok pair =>
          obtain ⟨dOut, lastOut⟩ := pair
          cases lastOut with
          | none =>
              constructor
              · intro cfg h
                simp [updateKeys, hload, hLoop] at h
              · intro cls us cause' h
                simp [updateKeys, hload, hLoop] at h
          | some cfg' =>
              obtain ⟨hfold, hlen, -, hne⟩ :=
                updateLoop_ok sch updates _ none [] dOut (some cfg') trace hLoop
              constructor
              · intro cfg h
                have hres : (updateKeys sch updates s).1 = .ok cfg' := by
                  simp [updateKeys, hload, hLoop]
                have hcc : cfg' = cfg := by
                  rw [hres] at h
                  exact Except.ok.inj h
                subst hcc
                have hup : updates ≠ [] := by
                  intro habs
                  subst habs
                  simp [updateLoop] at hLoop
                obtain ⟨c2, hc2, hval⟩ := hne hup
                have hc2' : c2 = cfg' := (Option.some.inj hc2).symm
                subst hc2'
                refine ⟨?_, ?_, ?_⟩
                · rw [show specApplyUpdates updates (sch.dump c) = dOut from ?_]
                  · exact hval
                  · rw [hfold]; rfl
                · simp [updateKeys, hload, hLoop]
                · have hlen2 : trace.length = updates.length := by simpa using hlen
                  simp [updateKeys, hload, hLoop, hlen2]
              · intro cls us cause' h
                simp [updateKeys, hload, hLoop] at h

/-- C2 counterexample: a two-key update on a valid config succeeds but
passes a dict to `Config.model_validate` twice — once per update key,
because the validation call sits inside the per-key loop — so the
resulting dict is not validated "exactly once" as the claim states. -/
theorem update_validates_per_key :
    (updateKeys exSchema
        [("created_by", PyVal.leaf "user2"), ("version", PyVal.leaf "2.0")]
        exColdState).2.2.length = 2
    ∧ ¬ ((updateKeys exSchema
        [("created_by", PyVal.leaf "user2"), ("version", PyVal.leaf "2.0")]
        exColdState).2.2.length = 1) :=
  ⟨rfl, by decide⟩

/-- Witness for the amended C2 at a concrete two-key update that
succeeds: the final dict validates, one save happens, and validation
ran once per key. -/
theorem update_batched_witness :
    exSchema.validate (specApplyUpdates
        [("created_by", PyVal.leaf "user2"), ("version", PyVal.leaf "2.0")]
        (exSchema.dump [("version", PyVal.leaf "1.0")]))
      = .ok [("version", PyVal.leaf "2.0"), ("created_by", PyVal.leaf "user2")]
    ∧ (updateKeys exSchema
        [("created_by", PyVal.leaf "user2"), ("version", PyVal.leaf "2.0")]
        exColdState).2.1
      = saveSt exSchema
          [("version", PyVal.leaf "2.0"), ("created_by", PyVal.leaf "user2")]
          { file := some [("version", PyVal.leaf "1.0")]
            cache := some [("version", PyVal.leaf "1.0")]
            revs := [] }
    ∧ (updateKeys exSchema
        [("created_by", PyVal.leaf "user2"), ("version", PyVal.leaf "2.0")]
        exColdState).2.2.length
      = [("created_by", PyVal.leaf "user2"),
         ("version", PyVal.leaf "2.0")].length :=
  (update_batched exSchema exColdState
    [("created_by", PyVal.leaf "user2"), ("version", PyVal.leaf "2.0")]
    [("version", PyVal.leaf "1.0")]
    { file := some [("version", PyVal.leaf "1.0")]
      cache := some [("version", PyVal.leaf "1.0")]
      revs := [] } rfl).1
    [("version", PyVal.leaf "2.0"), ("created_by", PyVal.leaf "user2")] rfl

theorem lexLtB_irrefl : ∀ a : FName, lexLtB a a = false := by
  intro a
  induction a with
  | nil => rfl
  | cons x xs ih => simp [lexLtB, lt_irrefl, ih]

theorem lexLtB_asymm : ∀ a b : FName, lexLtB a b = true → lexLtB b a = false := by
  intro a
  induction a with
  | nil =>
      intro b h
      cases b with
      | nil => simp [lexLtB] at h
      | cons y ys => rfl
  | cons x xs ih =>
      intro b h
      cases b with
      | nil => simp [lexLtB] at h
      | cons y ys =>
          by_cases h1 : x < y
          · simp [lexLtB, if_neg (lt_asymm h1), if_pos h1]
          · by_cases h2 : y < x
            · simp [lexLtB, h1, h2] at h
            · simp [lexLtB, h1, h2] at h ⊢
              exact ih ys h

theorem lexLtB_negtrans :
    ∀ a b c : FName, lexLtB b a = false → lexLtB c b = false → lexLtB c a = false := by
  intro a
  induction a with
  | nil =>
      intro b c _ _
      cases c with
      | nil => rfl
      | cons z zs => rfl
  | cons x xs ih =>
      intro b c h1 h2
      cases b with
      | nil => simp [lexLtB] at h1
      | cons y ys =>
          cases c with
          | nil => simp [lexLtB] at h2
          | cons z zs =>
              by_cases hyx : y < x
              · simp [lexLtB, hyx] at h1
              · by_cases hzy : z < y
                · simp [lexLtB, hzy] at h2
                · have hxy : x ≤ y := not_lt.mp hyx
                  have hyz : y ≤ z := not_lt.mp hzy
                  have hxz : x ≤ z := le_trans hxy hyz
                  rcases lt_or_eq_of_le hxy with hlt | heq
                  · -- x < y ≤ z, so x < z and the second branch settles it
                    have hxz' : x < z := lt_of_lt_of_le hlt hyz
                    simp [lexLtB, not_lt.mpr hxz, hxz']
                  · subst heq
                    rcases lt_or_eq_of_le hyz with hlt2 | heq2
                    · simp [lexLtB, not_lt.mpr hxz, hlt2]
                    · subst heq2
                      simp [lexLtB, lt_irrefl] at h1 h2 ⊢
                      exact ih ys zs h1 h2

theorem mem_insertName :
    ∀ (l : List FName) (x y : FName), y ∈ insertName x l ↔ y = x ∨ y ∈ l := by
  intro l x y
  induction l with
  | nil => simp [insertName]
  | cons z zs ih =>
      by_cases hc : lexLtB z x = true
      · simp [insertName, hc, ih]
        tauto
      · simp [insertName, hc]

theorem length_insertName :
    ∀ (l : List FName) (x : FName), (insertName x l).length = l.length + 1 := by
  intro l x
  induction l with
  | nil => rfl
  | cons z zs ih =>
      by_cases hc : lexLtB z x = true
      · simp [insertName, hc, ih]
      · simp [insertName, hc]

theorem length_sortNames : ∀ l : List FName, (sortNames l).length = l.length := by
  intro l
  induction l with
  | nil => rfl
  | cons x xs ih => simp [sortNames, length_insertName, ih]

theorem pairwise_insertName (x : FName) :
    ∀ l : List FName, List.Pairwise NameLe l →
      List.Pairwise NameLe (insertName x l) := by
  intro l
  induction l with
  | nil => intro _; simp [insertName, List.pairwise_singleton]
  | cons y ys ih =>
      intro h
      obtain ⟨hy, hys⟩ := List.pairwise_cons.mp h
      by_cases hc : lexLtB y x = true
      · simp only [insertName, hc, if_true]
        refine List.pairwise_cons.mpr ⟨?_, ih hys⟩
        intro z hz
        rcases (mem_insertName ys x z).mp hz with hzx | hzys
        · subst hzx
          exact lexLtB_asymm y z hc
        · exact hy z hzys
      · simp only [insertName, hc, if_false]
        refine List.pairwise_cons.mpr ⟨?_, h⟩
        intro z hz
        have hyx : lexLtB y x = false := by
          exact Bool.not_eq_true _ ▸ Bool.of_not_eq_true hc
        rcases List.mem_cons.mp hz with hzy | hzys
        · subst hzy
          exact hyx
        · exact lexLtB_negtrans x y z hyx (hy z hzys)

theorem pairwise_sortNames : ∀ l : List FName, List.Pairwise NameLe (sortNames l) := by
  intro l
  induction l with
  | nil => simp [sortNames]
  | cons x xs ih => exact pairwise_insertName x (sortNames xs) ih

theorem sortNames_of_pairwise :
    ∀ l : List FName, List.Pairwise NameLe l → sortNames l = l := by
  intro l
  induction l with
  | nil => intro _; rfl
  | cons x xs ih =>
      intro h
      obtain ⟨hx, hxs⟩ := List.pairwise_cons.mp h
      simp only [sortNames, ih hxs]
      cases xs with
      | nil => rfl
      | cons y ys =>
          have hxy : lexLtB y x = false := hx y (List.mem_cons_self y ys)
          simp [insertName, hxy]

theorem length_padNum : ∀ (w n : Nat), (padNum w n).length = w := by
  intro w
  induction w with
  | zero => intro n; rfl
  | succ k ih => intro n; simp [padNum, ih]

theorem digitChar_mono : ∀ b < 10, ∀ a < b, Nat.digitChar a < Nat.digitChar b := by
  decide

theorem padLt :
    ∀ (w m n : Nat), m < n → n < 10 ^ w →
      lexLtB (padNum w m) (padNum w n) = true := by
  intro w
  induction w with
  | zero =>
      intro m n hmn hn
      simp [pow_zero] at hn
      omega
  | succ k ih =>
      intro m n hmn hn
      have hpos : 0 < 10 ^ k := Nat.pos_pow_of_pos k (by norm_num)
      have hb : n / 10 ^ k < 10 := by
        rw [Nat.div_lt_iff_lt_mul hpos]
        calc n < 10 ^ (k + 1) := hn
          _ = 10 * 10 ^ k := by ring
      have hle : m / 10 ^ k ≤ n / 10 ^ k := Nat.div_le_div_right (le_of_lt hmn)
      rcases lt_or_eq_of_le hle with hlt | heq
      · have hchar : Nat.digitChar (m / 10 ^ k) < Nat.digitChar (n / 10 ^ k) :=
          digitChar_mono (n / 10 ^ k) hb (m / 10 ^ k) hlt
        simp [padNum, lexLtB, hchar]
      · have hm10 := Nat.div_add_mod m (10 ^ k)
        have hn10 := Nat.div_add_mod n (10 ^ k)
        rw [heq] at hm10
        have hmod : m % 10 ^ k < n % 10 ^ k := by omega
        have hmodlt : n % 10 ^ k < 10 ^ k := Nat.mod_lt n hpos
        simp [padNum, lexLtB, heq, lt_irrefl]
        exact ih (m % 10 ^ k) (n % 10 ^ k) hmod hmodlt

theorem lexLtB_append_same :
    ∀ (p a b : FName), lexLtB a b = true → lexLtB (p ++ a) (p ++ b) = true := by
  intro p
  induction p with
  | nil => intro a b h; simpa using h
  | cons c cs ih =>
      intro a b h
      simp only [List.cons_append, lexLtB, lt_irrefl, if_false]
      exact ih a b h

theorem lexLtB_append_of_lt :
    ∀ (a b x y : FName), a.length = b.length → lexLtB a b = true →
      lexLtB (a ++ x) (b ++ y) = true := by
  intro a
  induction a with
  | nil =>
      intro b x y hlen h
      cases b with
      | nil => simp [lexLtB] at h
      | cons z zs => simp at hlen
  | cons c cs ih =>
      intro b x y hlen h
      cases b with
      | nil => simp at hlen
      | cons z zs =>
          simp only [List.length_cons, Nat.succ.injEq] at hlen
          by_cases h1 : c < z
          · simp [lexLtB, h1]
          · by_cases h2 : z < c
            · simp [lexLtB, h1, h2] at h
            · simp only [lexLtB, h1, h2, if_false] at h
              simp only [List.cons_append, lexLtB, h1, h2, if_false]
              exact ih zs x y hlen h

theorem padNum_step (w v1 v2 : Nat) (x y : FName)
    (h : v1 < v2) (hb : v2 < 10 ^ w) :
    lexLtB (padNum w v1 ++ x) (padNum w v2 ++ y) = true :=
  lexLtB_append_of_lt (padNum w v1) (padNum w v2) x y
    (by rw [length_padNum, length_padNum]) (padLt w v1 v2 h hb)

/-- The generated snapshot filenames order chronologically: an earlier
timestamp gives a lexicographically smaller filename regardless of the
random tokens, because the `strftime` format is fixed-width and
zero-padded. -/
theorem snapshotFilename_monotone (t1 t2 : Timestamp) (tok1 tok2 sfx : List Char)
    (hv1 : t1.Valid) (hv2 : t2.Valid) (hlt : chronoLt t1 t2) :
    lexLtB (snapshotFilename t1 tok1 sfx) (snapshotFilename t2 tok2 sfx) = true := by
  obtain ⟨y1, mo1, d1, h1, mi1, s1, us1⟩ := t1
  obtain ⟨y2, mo2, d2, h2, mi2, s2, us2⟩ := t2
  obtain ⟨hy2, hmo2, hd2, hh2, hmi2, hs2, hus2⟩ := hv2
  simp only [snapshotFilename, strftimeCompact, List.append_assoc]
  rcases hlt with hy | ⟨hy, hrest⟩
  · exact padNum_step 4 y1 y2 _ _ hy (by simpa using hy2)
  · simp only at hy
    subst hy
    apply lexLtB_append_same
    rcases hrest with hmo | ⟨hmo, hrest⟩
    · exact padNum_step 2 mo1 mo2 _ _ hmo (by simpa using hmo2)
    · simp only at hmo
      subst hmo
      apply lexLtB_append_same
      rcases hrest with hd | ⟨hd, hrest⟩
      · exact padNum_step 2 d1 d2 _ _ hd (by simpa using hd2)
      · simp only at hd
        subst hd
        apply lexLtB_append_same
        apply lexLtB_append_same
        rcases hrest with hh | ⟨hh, hrest⟩
        · exact padNum_step 2 h1 h2 _ _ hh (by simpa using hh2)
        · simp only at hh
          subst hh
          apply lexLtB_append_same
          rcases hrest with hmi | ⟨hmi, hrest⟩
          · exact padNum_step 2 mi1 mi2 _ _ hmi (by simpa using hmi2)
          · simp only at hmi
            subst hmi
            apply lexLtB_append_same
            rcases hrest with hs | ⟨hs, hus⟩
            · exact padNum_step 2 s1 s2 _ _ hs (by simpa using hs2)
            · simp only at hs
              subst hs
              apply lexLtB_append_same
              apply lexLtB_append_same
              exact padNum_step 6 us1 us2 _ _ hus (by simpa using hus2)

theorem ensureTag_subdir (s : CacheState) : (ensureTag s).subdir = s.subdir := by
  cases h : s.tag <;> simp [ensureTag, h]

theorem length_listRevisions (s : CacheState) :
    (listRevisions s).length = (s.subdir.getD []).length := by
  cases h : s.subdir <;> simp [listRevisions, h, length_sortNames]

theorem length_trimFiles (N : Nat) (f : List FName) :
    (trimFiles N f).length = if f.length ≤ N then f.length else N := by
  unfold trimFiles
  split
  · rfl
  · rename_i hgt
    simp only [List.length_drop, length_sortNames]
    omega

theorem store_len_inv (N : Nat) (name : FName) (s : CacheState)
    (h : (s.subdir.getD []).length ≤ N) :
    (((storeRevision N name s).2).subdir.getD []).length ≤ N := by
  by_cases hN : N = 0
  · subst hN
    simpa [storeRevision] using h
  · simp only [storeRevision, hN, if_false]
    rw [ensureTag_subdir]
    simp only [Option.getD_some, length_trimFiles]
    split <;> omega

theorem runStores_len (N : Nat) (names : List FName) :
    ∀ s : CacheState, (s.subdir.getD []).length ≤ N →
      ((runStores N names s).subdir.getD []).length ≤ N := by
  induction names with
  | nil => intro s h; exact h
  | cons n rest ih =>
      intro s h
      exact ih ((storeRevision N n s).2) (store_len_inv N n s h)

/-- C3: with `max_revisions = N`, after any number of sequential
`store_revision` calls the number of files `list_revisions` reports
never exceeds `N`; the excess oldest revisions by filename sort are
deleted immediately after a new one is stored; and with `N = 0`,
`store_revision` returns an absent result and changes nothing (no file,
no directory, no tag is created). -/
theorem store_revision_retention (N : Nat) (names : List FName) :
    (listRevisions (runStores N names initCache)).length ≤ N
    ∧ (∀ (s : CacheState) (name : FName), storeRevision 0 name s = (none, s))
    ∧ runStores 0 names initCache = initCache
    ∧ (∀ (s : CacheState) (name : FName), 0 < N →
        listRevisions (storeRevision N name s).2
          = (sortNames ((ensureTag s).subdir.getD [] ++ [name])).drop
              (((ensureTag s).subdir.getD [] ++ [name]).length - N)) := by
  refine ⟨?_, fun s name => rfl, ?_, ?_⟩
  · rw [length_listRevisions]
    exact runStores_len N names initCache (by simp [initCache])
  · induction names with
    | nil => rfl
    | cons n rest ih => simp only [runStores, storeRevision, List.foldl_cons] at ih ⊢; exact ih
  · intro s name hN
    have hN' : ¬ N = 0 := by omega
    simp only [storeRevision, hN', if_false, listRevisions]
    set files1 := (ensureTag s).subdir.getD [] ++ [name] with hf1
    by_cases hle : files1.length ≤ N
    · simp only [trimFiles, hle, if_true]
      rw [Nat.sub_eq_zero_of_le hle, List.drop_zero]
    · simp only [trimFiles, hle, if_false]
      exact sortNames_of_pairwise _
        ((pairwise_sortNames files1).sublist (List.drop_sublist _ _))

/-- Witness for C3: the trim equation at a concrete one-file state with
`N = 1`. -/
theorem store_revision_retention_witness :
    listRevisions (storeRevision 1 "a".data ⟨some ["b".data], none⟩).2
      = (sortNames ((ensureTag ⟨some ["b".data], none⟩).subdir.getD []
            ++ ["a".data])).drop
          (((ensureTag ⟨some ["b".data], none⟩).subdir.getD []
            ++ ["a".data]).length - 1) :=
  (store_revision_retention 1 ["b".data]).2.2.2 ⟨some ["b".data], none⟩ "a".data
    (by norm_num)

theorem store_tag_pres (N : Nat) (name : FName) (s : CacheState) (c : String)
    (h : s.tag = some c) : ((storeRevision N name s).2).tag = some c := by
  by_cases hN : N = 0
  · subst hN; simpa [storeRevision] using h
  · simp [storeRevision, hN, ensureTag, h]

/-- C6: the `CACHEDIR.TAG` file is created at most once (only when
absent) with the fixed literal content, whose first line is the
signature `Signature: 8a477f597d28d172789f06886806bc55`; once present
its content is never rewritten by any number of further
`store_revision` calls. -/
theorem cachedir_tag_immutable (N : Nat) (names : List FName) :
    (∀ (s : CacheState) (c : String),
        s.tag = some c → (runStores N names s).tag = some c)
    ∧ ((runStores N names initCache).tag = none
        ∨ (runStores N names initCache).tag = some cachedirTagContent)
    ∧ firstLine cachedirTagContent
        = "Signature: 8a477f597d28d172789f06886806bc55" := by
  refine ⟨?_, ?_, by decide⟩
  · induction names with
    | nil => intro s c h; exact h
    | cons n rest ih =>
        intro s c h
        exact ih ((storeRevision N n s).2) c (store_tag_pres N n s c h)
  · have main : ∀ (rest : List FName) (s : CacheState),
        s.tag = none ∨ s.tag = some cachedirTagContent →
        (runStores N rest s).tag = none
          ∨ (runStores N rest s).tag = some cachedirTagContent := by
      intro rest
      induction rest with
      | nil => intro s h; exact h
      | cons n rs ih =>
          intro s h
          refine ih ((storeRevision N n s).2) ?_
          by_cases hN : N = 0
          · subst hN; simpa [storeRevision] using h
          · rcases h with h | h
            · right; simp [storeRevision, hN, ensureTag, h]
            · right; simp [storeRevision, hN, ensureTag, h]
    exact main names initCache (.inl rfl)

/-- Witness for C6: an existing tag with arbitrary prior content
survives a store, byte-identical. -/
theorem cachedir_tag_immutable_witness :
    (runStores 3 ["a".data] ⟨none, some "prior"⟩).tag = some "prior" :=
  (cachedir_tag_immutable 3 ["a".data]).1 ⟨none, some "prior"⟩ "prior" rfl

/-- C5: `list_revisions` always reports snapshot files sorted ascending
by filename (for any reachable cache state, i.e. any interleaving of
store and trim operations), reports the empty list while the resource's
snapshot subdirectory has never been created, and the generated
filenames — fixed-width zero-padded UTC timestamp to microsecond
precision, an 8-character token, and the resource suffix defaulting to
`.txt` — order lexicographically the same way as their creation
times. -/
theorem list_revisions_sorted (s : CacheState) :
    List.Pairwise NameLe (listRevisions s)
    ∧ listRevisions initCache = []
    ∧ (s.subdir = none → listRevisions s = [])
    ∧ (∀ (t1 t2 : Timestamp) (tok1 tok2 sfx : List Char),
        t1.Valid → t2.Valid → chronoLt t1 t2 →
        lexLtB (snapshotFilename t1 tok1 sfx) (snapshotFilename t2 tok2 sfx)
          = true)
    ∧ (∀ hex : List Char, 8 ≤ hex.length → (tokenOfHex hex).length = 8)
    ∧ (∀ sfx : List Char, sfx ≠ [] → suffixOrTxt sfx = sfx)
    ∧ suffixOrTxt [] = ".txt".data := by
  refine ⟨?_, rfl, ?_, ?_, ?_, ?_, rfl⟩
  · cases h : s.subdir <;> simp [listRevisions, h, pairwise_sortNames]
  · intro h; simp [listRevisions, h]
  · exact fun t1 t2 tok1 tok2 sfx hv1 hv2 hlt =>
      snapshotFilename_monotone t1 t2 tok1 tok2 sfx hv1 hv2 hlt
  · intro hex h
    simp only [tokenOfHex, List.length_take]
    omega
  · intro sfx h
    simp [suffixOrTxt, h]

/-- Witness for C5: two snapshots one microsecond apart order
chronologically whatever their random tokens are. -/
theorem list_revisions_sorted_witness :
    lexLtB
        (snapshotFilename ⟨2026, 10, 12, 3, 4, 5, 6⟩ "aaaaaaaa".data ".json".data)
        (snapshotFilename ⟨2026, 10, 12, 3, 4, 5, 7⟩ "00000000".data ".json".data)
      = true :=
  (list_revisions_sorted initCache).2.2.2.1
    ⟨2026, 10, 12, 3, 4, 5, 6⟩ ⟨2026, 10, 12, 3, 4, 5, 7⟩
    "aaaaaaaa".data "00000000".data ".json".data
    (by constructor <;> norm_num)
    (by constructor <;> norm_num)
    (by simp [chronoLt])

end FmuSettings
